import Mathlib

/-!
Verification of the yinsh rule-engine core (src/core/state.rs and
src/core/actions.rs) against its specification.

The repository does not ship the board, coordinate and entity modules
(core/board.rs, common/coord.rs, core/entities.rs); only their callers are
present.  Those parts are modelled from the specification text (sections 3,
4.1 and 4.2 of the spec); every such definition carries a doc comment that
starts with "Modelled from the spec:".  The command set and the game state
machine are translated directly from the Rust source.
-/

namespace Yinsh

/-- Modelled from the spec: binary player tag with a total, involutive
other() operation (spec section 3, entities module missing from src). -/
inductive Player
  | white
  | black
deriving DecidableEq

/-- Modelled from the spec: the total, involutive opponent operation. -/
def Player.other : Player → Player
  | .white => .black
  | .black => .white

/-- Modelled from the spec: a board cell holds at most one piece, a ring or
a marker, each with an owner (spec section 3). -/
inductive Piece
  | ring (owner : Player)
  | marker (owner : Player)
deriving DecidableEq

/-- Modelled from the spec: axial hex coordinate pair (q, r); equality by
(q, r) (spec section 3, coord module missing from src). -/
structure HexCoord where
  q : Int
  r : Int
deriving DecidableEq

/-- Componentwise coordinate addition, used for line walking. -/
def HexCoord.add (a b : HexCoord) : HexCoord := ⟨a.q + b.q, a.r + b.r⟩

/-- Componentwise coordinate subtraction. -/
def HexCoord.sub (a b : HexCoord) : HexCoord := ⟨a.q - b.q, a.r - b.r⟩

/-- Modelled from the spec: the fixed board radius R; the standard board
yields 61 valid points, which is the hexagonal ball of radius 4. -/
def board_radius : Nat := 4

/-- Modelled from the spec: validity is bounded by the fixed board radius
(spec section 3); the hexagonal ball of radius 4 has exactly 61 points. -/
def HexCoord.valid (c : HexCoord) : Bool :=
  decide (c.q.natAbs ≤ board_radius ∧ c.r.natAbs ≤ board_radius ∧
    (c.q + c.r).natAbs ≤ board_radius)

/-- Modelled from the spec: the six unit direction vectors of the
triangular grid (spec section 4.1). -/
def directions : List HexCoord :=
  [⟨1, 0⟩, ⟨-1, 0⟩, ⟨0, 1⟩, ⟨0, -1⟩, ⟨1, -1⟩, ⟨-1, 1⟩]

/-- Modelled from the spec: the three line axes of the grid, one positive
representative direction per axis (spec section 4.2, runs detection). -/
def axes : List HexCoord := [⟨1, 0⟩, ⟨0, 1⟩, ⟨1, -1⟩]

/-- The signed coordinate range -R..R used to enumerate the board. -/
def coordRange : List Int :=
  (List.range (2 * board_radius + 1)).map (fun i => (i : Int) - board_radius)

/-- Modelled from the spec: board_coords, all valid coordinates of the
board, used to enumerate placement targets (spec section 4.2). -/
def board_coords : List HexCoord :=
  coordRange.flatMap (fun q =>
    coordRange.filterMap (fun r =>
      if (⟨q, r⟩ : HexCoord).valid then some ⟨q, r⟩ else none))

/-- Modelled from the spec: a line walk stepping from a start point in one
direction until leaving the valid radius (spec section 4.1).  The start
point itself is not part of the walk.  Fuel-based recursion; a line of the
radius-4 board has at most 9 cells, so any fuel of at least 9 is exact. -/
def walkLine (c d : HexCoord) : Nat → List HexCoord
  | 0 => []
  | fuel + 1 =>
    let c2 := c.add d
    if c2.valid then c2 :: walkLine c2 d fuel else []

/-- Fuel that exhausts any line of the board. -/
def lineFuel : Nat := 2 * board_radius + 1

/-- Modelled from the spec: sparse mapping from coordinate to piece,
absent = empty (spec section 3, board module missing from src). -/
structure Board where
  cells : HexCoord → Option Piece

/-- Modelled from the spec: Board::new creates the empty board. -/
def Board.new : Board := ⟨fun _ => none⟩

/-- Modelled from the spec: occupied(pos), the piece at pos, if any. -/
def Board.occupied (b : Board) (c : HexCoord) : Option Piece := b.cells c

/-- Modelled from the spec: free_board_field(pos), true iff pos is valid
and unoccupied. -/
def Board.free_board_field (b : Board) (c : HexCoord) : Bool :=
  c.valid && (b.occupied c).isNone

/-- Modelled from the spec: place_unchecked, an unconditional write that
overwrites any existing piece. -/
def Board.place_unchecked (b : Board) (p : Piece) (pos : HexCoord) : Board :=
  ⟨fun c => if c = pos then some p else b.cells c⟩

/-- Modelled from the spec: remove(pos), an unconditional clear. -/
def Board.remove (b : Board) (pos : HexCoord) : Board :=
  ⟨fun c => if c = pos then none else b.cells c⟩

/-- Modelled from the spec: player_ring_at, ownership-and-kind test. -/
def Board.player_ring_at (b : Board) (c : HexCoord) (p : Player) : Bool :=
  decide (b.occupied c = some (Piece.ring p))

/-- Modelled from the spec: player_marker_at, ownership-and-kind test. -/
def Board.player_marker_at (b : Board) (c : HexCoord) (p : Player) : Bool :=
  decide (b.occupied c = some (Piece.marker p))

/-- Modelled from the spec: rings().count(), the number of occupied board
coordinates holding a ring; the spec invariant keeps every stored
coordinate valid, so the enumeration ranges over the valid coordinates. -/
def Board.ringsCount (b : Board) : Nat :=
  (board_coords.filter (fun c =>
    match b.occupied c with
    | some (Piece.ring _) => true
    | _ => false)).length

/-- Modelled from the spec: player_rings(player), the occupied coordinates
holding a ring of the given player. -/
def Board.player_rings (b : Board) (p : Player) : List HexCoord :=
  board_coords.filter (fun c => b.player_ring_at c p)

/-- Modelled from the spec: after one marker run has been jumped and the
walk re-entered empty cells, every further consecutive empty cell is a
target and the walk stops at the next non-empty cell (spec section 4.2,
ring_targets step 3, tail of the walk). -/
def targetsC (b : Board) : List HexCoord → List HexCoord
  | [] => []
  | c :: cs => if (b.occupied c).isNone then c :: targetsC b cs else []

/-- Modelled from the spec: the walk inside the first jumped marker run;
marker cells are skipped and are never targets, a ring ends the walk with
no target beyond the run, and the first empty cell after the run is a
target followed by the further empty cells (spec section 4.2, step 3). -/
def targetsB (b : Board) : List HexCoord → List HexCoord
  | [] => []
  | c :: cs =>
    match b.occupied c with
    | none => c :: targetsC b cs
    | some (Piece.marker _) => targetsB b cs
    | some (Piece.ring _) => []

/-- Modelled from the spec: the walk outward from the origin; every
consecutive empty cell before any occupied cell is a target, a ring ends
the walk immediately, and a marker starts the jump over its contiguous
run (spec section 4.2, ring_targets steps 1 to 3). -/
def targetsA (b : Board) : List HexCoord → List HexCoord
  | [] => []
  | c :: cs =>
    match b.occupied c with
    | none => c :: targetsA b cs
    | some (Piece.ring _) => []
    | some (Piece.marker _) => targetsB b cs

/-- Modelled from the spec: ring_targets(from), the legal landing
coordinates for a ring at from, computed independently along each of the
six directions (spec section 4.2). -/
def Board.ring_targets (b : Board) (c : HexCoord) : List HexCoord :=
  directions.flatMap (fun d => targetsA b (walkLine c d lineFuel))

/-- Toggle of one cell under a marker flip: a marker changes owner, any
other content is untouched. -/
def flipCell : Option Piece → Option Piece
  | some (Piece.marker p) => some (Piece.marker p.other)
  | x => x

/-- Modelled from the spec: the coordinates strictly between from and to on
their common grid line (exclusive of both endpoints); empty when the two
points are not collinear. -/
def segmentBetween (f t : HexCoord) : List HexCoord :=
  directions.flatMap (fun d =>
    let l := walkLine f d lineFuel
    if t ∈ l then l.takeWhile (fun c => decide (c ≠ t)) else [])

/-- Modelled from the spec: flip_between(from, to) toggles the owner of
every marker on the line strictly between from and to (spec section 4.2). -/
def Board.flip_between (b : Board) (f t : HexCoord) : Board :=
  ⟨fun c => if c ∈ segmentBetween f t then flipCell (b.cells c) else b.cells c⟩

/-- Accumulator pass splitting one board line into its maximal contiguous
blocks of markers of one player; cur holds the current block reversed. -/
def blocksAux (b : Board) (p : Player) (cur : List HexCoord) :
    List HexCoord → List (List HexCoord)
  | [] => if cur.isEmpty then [] else [cur.reverse]
  | c :: cs =>
    if b.player_marker_at c p then blocksAux b p (c :: cur) cs
    else (if cur.isEmpty then [] else [cur.reverse]) ++ blocksAux b p [] cs

/-- The starting coordinates of the maximal board lines along direction d:
the valid coordinates whose predecessor along d is off the board. -/
def lineStarts (d : HexCoord) : List HexCoord :=
  board_coords.filter (fun c => !(c.sub d).valid)

/-- One maximal board line: a start coordinate followed by the walk along
the direction until leaving the board. -/
def fullLine (c d : HexCoord) : List HexCoord := c :: walkLine c d lineFuel

/-- Modelled from the spec: runs(player) scans all coordinates along all
three line axes and returns every maximal contiguous same-player marker
sequence of length exactly five (spec section 4.2). -/
def Board.runs (b : Board) (p : Player) : List (List HexCoord) :=
  axes.flatMap (fun d =>
    (lineStarts d).flatMap (fun c =>
      (blocksAux b p [] (fullLine c d)).filter (fun r => decide (r.length = 5))))

/-- Modelled from the spec: get_radius, the static board radius accessor. -/
def Board.get_radius (_ : Board) : Nat := board_radius

/-- Sanity check for the spec model: the standard board has 61 points. -/
theorem board_coords_length : board_coords.length = 61 := by decide

/-- The phase state machine, from src/core/state.rs.  The moveRing origin
field corresponds to the from coordinate of the Rust variant. -/
inductive Phase
  | placeRing
  | placeMarker
  | moveRing (origin : HexCoord)
  | removeRun
  | removeRing
  | playerWon (winner : Player)
deriving DecidableEq

/-- The five reversible commands, from src/core/actions.rs.  The src and
dst fields of moveRing correspond to the from and to fields of the Rust
struct (from is a keyword in Lean). -/
inductive Action
  | placeRing (pos : HexCoord)
  | placeMarker (pos : HexCoord)
  | moveRing (src dst : HexCoord) (player : Player)
  | removeRun (run_idx : Nat) (run : List HexCoord) (pos : HexCoord)
  | removeRing (pos : HexCoord) (player : Player)
deriving DecidableEq

/-- The game state, from src/core/state.rs.  The transient
last_state_change diff is consumed only by the presentation layer and is
omitted; the Command trait of actions.rs returns unit, so the engine core
never reads it. -/
structure State where
  board : Board
  current_player : Player
  current_phase : Phase
  points_white : Nat
  points_black : Nat
  runs_white : List (List HexCoord)
  runs_black : List (List HexCoord)
  history : List Action

/-- State::new, from src/core/state.rs. -/
def State.new (board : Board) : State :=
  { board := board
    current_player := .white
    current_phase := .placeRing
    points_white := 0
    points_black := 0
    runs_white := []
    runs_black := []
    history := [] }

/-- State::at_phase. -/
def State.at_phase (s : State) (p : Phase) : Bool :=
  decide (s.current_phase = p)

/-- State::next_player. -/
def State.next_player (s : State) : State :=
  { s with current_player := s.current_player.other }

/-- State::set_phase. -/
def State.set_phase (s : State) (p : Phase) : State :=
  { s with current_phase := p }

/-- The per-player run cache field selector used by has_run, get_run and
is_valid_run in src/core/state.rs. -/
def State.runs_for (s : State) (p : Player) : List (List HexCoord) :=
  match p with
  | .white => s.runs_white
  | .black => s.runs_black

/-- State::current_player_runs. -/
def State.current_player_runs (s : State) : List (List HexCoord) :=
  s.runs_for s.current_player

/-- State::compute_runs refreshes both cached run lists from the board. -/
def State.compute_runs (s : State) : State :=
  { s with runs_white := s.board.runs .white, runs_black := s.board.runs .black }

/-- State::has_run. -/
def State.has_run (s : State) (p : Player) : Bool :=
  decide (0 < (s.runs_for p).length)

/-- State::is_valid_run: the run occurs in the cached run list. -/
def State.is_valid_run (s : State) (p : Player) (run : List HexCoord) : Bool :=
  (s.runs_for p).any (fun r => decide (r = run))

/-- State::inc_score. -/
def State.inc_score (s : State) (p : Player) : State :=
  match p with
  | .white => { s with points_white := s.points_white + 1 }
  | .black => { s with points_black := s.points_black + 1 }

/-- State::dec_score.  The Rust field is a usize; scores stay in 0..3 in
legal play, so the truncated Nat subtraction is exact on every state the
engine reaches. -/
def State.dec_score (s : State) (p : Player) : State :=
  match p with
  | .white => { s with points_white := s.points_white - 1 }
  | .black => { s with points_black := s.points_black - 1 }

/-- State::get_score. -/
def State.get_score (s : State) (p : Player) : Nat :=
  match p with
  | .white => s.points_white
  | .black => s.points_black

/-- Command::coord, the anchor coordinate of each command. -/
def Action.coord : Action → HexCoord
  | .placeRing pos => pos
  | .placeMarker pos => pos
  | .moveRing _ dst _ => dst
  | .removeRun _ _ pos => pos
  | .removeRing pos _ => pos

/-- Command::is_legal for the five commands, from src/core/actions.rs. -/
def Action.is_legal (a : Action) (s : State) : Bool :=
  match a with
  | .placeRing pos =>
    s.at_phase .placeRing && s.board.free_board_field pos
  | .placeMarker pos =>
    s.at_phase .placeMarker && s.board.player_ring_at pos s.current_player
  | .moveRing src dst _ =>
    s.at_phase (.moveRing src) && decide (dst ∈ s.board.ring_targets src)
  | .removeRun _ run _ =>
    s.at_phase .removeRun && s.is_valid_run s.current_player run
  | .removeRing pos p =>
    s.at_phase .removeRing && s.board.player_ring_at pos s.current_player &&
      decide (s.current_player = p)

/-- Command::execute for the five commands, from src/core/actions.rs. -/
def Action.execute (a : Action) (s : State) : State :=
  match a with
  | .placeRing pos =>
    let s1 := { s with board := s.board.place_unchecked (Piece.ring s.current_player) pos }
    let s2 := if 9 < s1.board.ringsCount then s1.set_phase .placeMarker else s1
    s2.next_player
  | .placeMarker pos =>
    let s1 := { s with board := s.board.place_unchecked (Piece.marker s.current_player) pos }
    s1.set_phase (.moveRing pos)
  | .moveRing src dst _ =>
    let s1 := { s with board :=
      (s.board.place_unchecked (Piece.ring s.current_player) dst).flip_between src dst }
    let s2 := s1.compute_runs
    if 0 < (s2.board.runs s2.current_player).length then
      s2.set_phase .removeRun
    else if 0 < (s2.board.runs s2.current_player.other).length then
      (s2.set_phase .removeRun).next_player
    else
      (s2.set_phase .placeMarker).next_player
  | .removeRun _ run _ =>
    let s1 := { s with board := run.foldl (fun b c => b.remove c) s.board }
    (s1.compute_runs).set_phase .removeRing
  | .removeRing pos _ =>
    let s1 := { s with board := s.board.remove pos }
    let s2 := s1.inc_score s1.current_player
    if s2.get_score s2.current_player = 3 then
      s2.set_phase (.playerWon s2.current_player)
    else if s2.has_run s2.current_player then
      s2.set_phase .removeRun
    else
      let s3 := s2.next_player
      if s3.has_run s3.current_player then s3.set_phase .removeRun
      else s3.set_phase .placeMarker

/-- Command::undo for the five commands, from src/core/actions.rs. -/
def Action.undo (a : Action) (s : State) : State :=
  match a with
  | .placeRing pos =>
    (({ s with board := s.board.remove pos }).set_phase .placeRing).next_player
  | .placeMarker pos =>
    ({ s with board :=
      s.board.place_unchecked (Piece.ring s.current_player) pos }).set_phase .placeMarker
  | .moveRing src dst p =>
    let s1 := { s with board := (s.board.remove dst).flip_between src dst }
    let s2 := { s1 with current_player := p }
    (s2.set_phase (.moveRing src)).compute_runs
  | .removeRun _ run _ =>
    let s1 := s.set_phase .removeRun
    let b1 := run.foldl (fun b c => b.place_unchecked (Piece.marker s1.current_player) c) s1.board
    let s2 := { s1 with board := b1 }
    s2.compute_runs
  | .removeRing pos p =>
    let s1 := { s with current_player := p }
    let s2 := s1.dec_score p
    let s3 := s2.set_phase .removeRing
    { s3 with board := s3.board.place_unchecked (Piece.ring s3.current_player) pos }

/-- The RemoveRun arm of State::legal_moves indexes each cached run with
run[0]; a Rust panic on an empty cached run is modelled as none. -/
def removeRunMoves : Nat → List (List HexCoord) → Option (List Action)
  | _, [] => some []
  | i, r :: rs =>
    match r.head? with
    | none => none
    | some h => (removeRunMoves (i + 1) rs).map (fun rest => Action.removeRun i r h :: rest)

/-- State::legal_moves, from src/core/state.rs.  The result is none
exactly when the Rust code would panic (run[0] on an empty cached run in
the RemoveRun arm); every other arm is total. -/
def State.legal_moves (s : State) : Option (List Action) :=
  match s.current_phase with
  | .placeRing =>
    some ((board_coords.filter (fun c => (s.board.occupied c).isNone)).map Action.placeRing)
  | .placeMarker =>
    some ((s.board.player_rings s.current_player).map Action.placeMarker)
  | .moveRing src =>
    some ((s.board.ring_targets src).map (fun c => Action.moveRing src c s.current_player))
  | .removeRun =>
    removeRunMoves 0 s.current_player_runs
  | .removeRing =>
    some ((s.board.player_rings s.current_player).map
      (fun c => Action.removeRing c s.current_player))
  | .playerWon _ => some []

/-- State::undo, from src/core/state.rs: pop the history stack and invert
the popped command; a Bool reports whether an undo occurred. -/
def State.undo (s : State) : Bool × State :=
  match s.history with
  | [] => (false, s)
  | a :: rest => (true, a.undo { s with history := rest })

/-- State::execute_for_coord, from src/core/state.rs: find the first legal
move whose anchor matches the coordinate, re-validate it, execute it and
push it onto the history stack.  The outer Option is none exactly when
legal_moves panics. -/
def State.execute_for_coord (s : State) (coord : HexCoord) : Option (Bool × State) :=
  (s.legal_moves).map (fun moves =>
    match moves.find? (fun m => decide (m.coord = coord)) with
    | some m =>
      if m.is_legal s then (true, { m.execute s with history := m :: s.history })
      else (false, s)
    | none => (false, s))

/-! ### Helper lemmas -/

theorem Player.other_other (p : Player) : p.other.other = p := by
  cases p <;> rfl

theorem flipCell_flipCell (x : Option Piece) : flipCell (flipCell x) = x := by
  match x with
  | none => rfl
  | some (Piece.ring _) => rfl
  | some (Piece.marker p) => simp [flipCell, Player.other_other]

theorem Board.occupied_place (b : Board) (p : Piece) (pos c : HexCoord) :
    (b.place_unchecked p pos).occupied c = if c = pos then some p else b.occupied c := rfl

theorem Board.occupied_remove (b : Board) (pos c : HexCoord) :
    (b.remove pos).occupied c = if c = pos then none else b.occupied c := rfl

theorem Board.occupied_flip (b : Board) (f t c : HexCoord) :
    (b.flip_between f t).occupied c =
      if c ∈ segmentBetween f t then flipCell (b.occupied c) else b.occupied c := rfl

theorem walkLine_mem_eq_add (d : HexCoord) :
    ∀ (n : Nat) (c x : HexCoord), x ∈ walkLine c d n →
      ∃ k : Nat, 0 < k ∧ x.q = c.q + k * d.q ∧ x.r = c.r + k * d.r := by
  intro n
  induction n with
  | zero => intro c x h; simp [walkLine] at h
  | succ m ih =>
    intro c x h
    simp only [walkLine] at h
    by_cases hv : (c.add d).valid
    · simp only [hv, if_true, List.mem_cons] at h
      rcases h with rfl | h2
      · exact ⟨1, by simp [HexCoord.add]⟩
      · obtain ⟨k, hk, hq, hr⟩ := ih (c.add d) x h2
        refine ⟨k + 1, by omega, ?_, ?_⟩
        · simp only [HexCoord.add] at hq
          push_cast
          rw [hq]; ring
        · simp only [HexCoord.add] at hr
          push_cast
          rw [hr]; ring
    · simp [hv] at h

theorem walkLine_ne_start (d : HexCoord) (hd : d ∈ directions) (n : Nat) (c x : HexCoord)
    (hx : x ∈ walkLine c d n) : x ≠ c := by
  obtain ⟨k, hk, hq, hr⟩ := walkLine_mem_eq_add d n c x hx
  intro he
  subst he
  have hdq : (k : Int) * d.q = 0 := by linarith
  have hdr : (k : Int) * d.r = 0 := by linarith
  have hk0 : (k : Int) ≠ 0 := by
    have : k ≠ 0 := Nat.pos_iff_ne_zero.mp hk
    exact_mod_cast this
  have hq0 : d.q = 0 := by
    rcases mul_eq_zero.mp hdq with h | h
    · exact absurd h hk0
    · exact h
  have hr0 : d.r = 0 := by
    rcases mul_eq_zero.mp hdr with h | h
    · exact absurd h hk0
    · exact h
  fin_cases hd <;> simp_all

theorem mem_segment_ne_right (f t x : HexCoord) (hx : x ∈ segmentBetween f t) : x ≠ t := by
  simp only [segmentBetween, List.mem_flatMap] at hx
  obtain ⟨d, _, hxl⟩ := hx
  by_cases hm : t ∈ walkLine f d lineFuel
  · simp only [hm, if_true] at hxl
    have := List.mem_takeWhile_imp hxl
    simpa using this
  · simp [hm] at hxl

theorem mem_segment_ne_left (f t x : HexCoord) (hx : x ∈ segmentBetween f t) : x ≠ f := by
  simp only [segmentBetween, List.mem_flatMap] at hx
  obtain ⟨d, hd, hxl⟩ := hx
  by_cases hm : t ∈ walkLine f d lineFuel
  · simp only [hm, if_true] at hxl
    exact walkLine_ne_start d hd lineFuel f x ((List.takeWhile_sublist _).mem hxl)
  · simp [hm] at hxl

theorem targetsC_spec (b : Board) :
    ∀ (l : List HexCoord) (x : HexCoord), x ∈ targetsC b l →
      b.occupied x = none ∧ x ∈ l := by
  intro l
  induction l with
  | nil => intro x h; simp [targetsC] at h
  | cons c cs ih =>
    intro x h
    simp only [targetsC] at h
    by_cases hc : (b.occupied c).isNone
    · simp only [hc, if_true, List.mem_cons] at h
      rcases h with rfl | h2
      · exact ⟨Option.isNone_iff_eq_none.mp hc, List.mem_cons_self _ _⟩
      · exact ⟨(ih x h2).1, List.mem_cons_of_mem _ (ih x h2).2⟩
    · simp [hc] at h

theorem targetsB_spec (b : Board) :
    ∀ (l : List HexCoord) (x : HexCoord), x ∈ targetsB b l →
      b.occupied x = none ∧ x ∈ l := by
  intro l
  induction l with
  | nil => intro x h; simp [targetsB] at h
  | cons c cs ih =>
    intro x h
    rcases hoc : b.occupied c with _ | pc
    · rw [targetsB, hoc] at h
      rcases List.mem_cons.mp h with rfl | h2
      · exact ⟨hoc, List.mem_cons_self _ _⟩
      · obtain ⟨h3, h4⟩ := targetsC_spec b cs x h2
        exact ⟨h3, List.mem_cons_of_mem _ h4⟩
    · cases pc with
      | ring q => rw [targetsB, hoc] at h; simp at h
      | marker q =>
        rw [targetsB, hoc] at h
        exact ⟨(ih x h).1, List.mem_cons_of_mem _ (ih x h).2⟩

theorem targetsA_spec (b : Board) :
    ∀ (l : List HexCoord) (x : HexCoord), x ∈ targetsA b l →
      b.occupied x = none ∧ x ∈ l := by
  intro l
  induction l with
  | nil => intro x h; simp [targetsA] at h
  | cons c cs ih =>
    intro x h
    rcases hoc : b.occupied c with _ | pc
    · rw [targetsA, hoc] at h
      rcases List.mem_cons.mp h with rfl | h2
      · exact ⟨hoc, List.mem_cons_self _ _⟩
      · exact ⟨(ih x h2).1, List.mem_cons_of_mem _ (ih x h2).2⟩
    · cases pc with
      | ring q => rw [targetsA, hoc] at h; simp at h
      | marker q =>
        rw [targetsA, hoc] at h
        obtain ⟨h3, h4⟩ := targetsB_spec b cs x h
        exact ⟨h3, List.mem_cons_of_mem _ h4⟩

theorem ring_targets_occupied_none (b : Board) (c t : HexCoord)
    (h : t ∈ b.ring_targets c) : b.occupied t = none := by
  simp only [Board.ring_targets, List.mem_flatMap] at h
  obtain ⟨d, _, hm⟩ := h
  exact (targetsA_spec b _ t hm).1

theorem ring_targets_ne_start (b : Board) (c t : HexCoord)
    (h : t ∈ b.ring_targets c) : t ≠ c := by
  simp only [Board.ring_targets, List.mem_flatMap] at h
  obtain ⟨d, hd, hm⟩ := h
  exact walkLine_ne_start d hd lineFuel c t (targetsA_spec b _ t hm).2

theorem foldl_remove_occ (l : List HexCoord) (b : Board) (c : HexCoord) :
    (l.foldl (fun b x => b.remove x) b).occupied c =
      if c ∈ l then none else b.occupied c := by
  induction l generalizing b with
  | nil => simp
  | cons a l ih =>
    simp only [List.foldl_cons, ih, List.mem_cons]
    by_cases hc : c = a
    · subst hc
      simp [Board.occupied_remove]
    · simp [Board.occupied_remove, hc]

theorem foldl_place_occ (l : List HexCoord) (b : Board) (p : Piece) (c : HexCoord) :
    (l.foldl (fun b x => b.place_unchecked p x) b).occupied c =
      if c ∈ l then some p else b.occupied c := by
  induction l generalizing b with
  | nil => simp
  | cons a l ih =>
    simp only [List.foldl_cons, ih, List.mem_cons]
    by_cases hc : c = a
    · subst hc
      simp [Board.occupied_place]
    · simp [Board.occupied_place, hc]

theorem move_ring_board_round (b : Board) (src dst : HexCoord) (pc : Piece)
    (hempty : b.occupied dst = none) (c : HexCoord) :
    ((((b.place_unchecked pc dst).flip_between src dst).remove dst).flip_between
      src dst).occupied c = b.occupied c := by
  by_cases hseg : c ∈ segmentBetween src dst
  · have hne : c ≠ dst := mem_segment_ne_right _ _ _ hseg
    simp [Board.occupied_flip, Board.occupied_remove, Board.occupied_place, hseg, hne,
      flipCell_flipCell]
  · by_cases hcd : c = dst
    · subst hcd
      simp [Board.occupied_flip, Board.occupied_remove, Board.occupied_place, hseg, hempty]
    · simp [Board.occupied_flip, Board.occupied_remove, Board.occupied_place, hseg, hcd]

/-- The side conditions under which the execute/undo round trip restores
the state.  Every command produced by legal_moves on a state whose run
caches agree with the board satisfies them: legal_moves builds MoveRing
commands carrying the current player, and every cached run of the current
player consists of that player's markers.  is_legal alone does not imply
them: MoveRing::is_legal never reads the player field, and
RemoveRun::is_legal checks the cache, not the board. -/
def Action.enumerated_for (a : Action) (s : State) : Bool :=
  match a with
  | .moveRing _ _ p => decide (p = s.current_player)
  | .removeRun _ run _ =>
    run.all (fun c => decide (s.board.occupied c = some (Piece.marker s.current_player)))
  | _ => true

/-- C1 (amended): for every command c and state s where c.is_legal(s)
holds — and where, as for every command produced by legal_moves on a
cache-consistent state, a MoveRing command carries the current player and
the run of a RemoveRun command consists of cells holding the current
player's markers — executing c and then undoing c restores the board
contents, the phase, the current player and both scores exactly. -/
theorem c1_round_trip (a : Action) (s : State)
    (h1 : a.is_legal s = true) (h2 : a.enumerated_for s = true) :
    (∀ c, (a.undo (a.execute s)).board.occupied c = s.board.occupied c) ∧
    (a.undo (a.execute s)).current_phase = s.current_phase ∧
    (a.undo (a.execute s)).current_player = s.current_player ∧
    (a.undo (a.execute s)).points_white = s.points_white ∧
    (a.undo (a.execute s)).points_black = s.points_black := by
  cases a with
  | placeRing pos =>
    simp only [Action.is_legal, State.at_phase, Board.free_board_field, Bool.and_eq_true,
      decide_eq_true_eq, Option.isNone_iff_eq_none] at h1
    obtain ⟨hph, hval, hocc⟩ := h1
    by_cases hcnt : 9 < (s.board.place_unchecked (Piece.ring s.current_player) pos).ringsCount <;>
      refine ⟨fun c => ?_, ?_, ?_, ?_, ?_⟩ <;>
      simp only [Action.execute, Action.undo, State.set_phase, State.next_player, hcnt,
        if_true, if_false, Player.other_other, hph] <;>
      first
        | rfl
        | (by_cases hc : c = pos
           · subst hc
             simp [Board.occupied_remove, Board.occupied_place, hocc]
           · simp [Board.occupied_remove, Board.occupied_place, hc])
  | placeMarker pos =>
    simp only [Action.is_legal, State.at_phase, Board.player_ring_at, Bool.and_eq_true,
      decide_eq_true_eq] at h1
    obtain ⟨hph, hring⟩ := h1
    refine ⟨fun c => ?_, ?_, ?_, ?_, ?_⟩ <;>
      simp only [Action.execute, Action.undo, State.set_phase, State.next_player, hph] <;>
      first
        | rfl
        | (by_cases hc : c = pos
           · subst hc
             simp [Board.occupied_place, hring]
           · simp [Board.occupied_place, hc])
  | moveRing src dst p =>
    simp only [Action.is_legal, State.at_phase, Bool.and_eq_true, decide_eq_true_eq] at h1
    obtain ⟨hph, htgt⟩ := h1
    simp only [Action.enumerated_for, decide_eq_true_eq] at h2
    have hempty := ring_targets_occupied_none _ _ _ htgt
    refine ⟨fun c => ?_, ?_, ?_, ?_, ?_⟩ <;>
      simp only [Action.execute, Action.undo, State.set_phase, State.next_player,
        State.compute_runs, hph, h2] <;>
      (try split) <;> (try split) <;>
      first
        | rfl
        | exact move_ring_board_round s.board src dst _ hempty c
  | removeRun i run pos =>
    simp only [Action.is_legal, State.at_phase, Bool.and_eq_true, decide_eq_true_eq] at h1
    obtain ⟨hph, _⟩ := h1
    simp only [Action.enumerated_for, List.all_eq_true, decide_eq_true_eq] at h2
    refine ⟨fun c => ?_, ?_, ?_, ?_, ?_⟩ <;>
      simp only [Action.execute, Action.undo, State.set_phase, State.next_player,
        State.compute_runs, hph] <;>
      first
        | rfl
        | (rw [foldl_place_occ, foldl_remove_occ]
           by_cases hc : c ∈ run
           · simp [hc, (h2 c hc).symm]
           · simp [hc])
  | removeRing pos p =>
    simp only [Action.is_legal, State.at_phase, Board.player_ring_at, Bool.and_eq_true,
      decide_eq_true_eq] at h1
    obtain ⟨⟨hph, hring⟩, hp⟩ := h1
    rw [hp] at hring
    have hboard : ∀ c, ((s.board.remove pos).place_unchecked (Piece.ring p) pos).occupied c
        = s.board.occupied c := by
      intro c
      by_cases hc : c = pos
      · subst hc
        simp [Board.occupied_place, Board.occupied_remove, hring]
      · simp [Board.occupied_place, Board.occupied_remove, hc]
    refine ⟨fun c => ?_, ?_, ?_, ?_, ?_⟩ <;>
      cases p <;>
      simp only [Action.execute, Action.undo, State.set_phase, State.next_player,
        State.inc_score, State.dec_score, State.get_score, hp, hph] <;>
      (try split) <;> (try split) <;> (try split) <;>
      first
        | rfl
        | exact hboard c

def c1cexMvState : State := { State.new Board.new with current_phase := .moveRing ⟨0,0⟩ }

def c1cexMv : Action := Action.moveRing ⟨0,0⟩ ⟨1,0⟩ Player.black

def c1cexRrRun : List HexCoord := [⟨0,0⟩, ⟨1,0⟩, ⟨2,0⟩, ⟨3,0⟩, ⟨4,0⟩]

def c1cexRrState : State :=
  { State.new Board.new with current_phase := .removeRun, runs_white := [c1cexRrRun] }

def c1cexRr : Action := Action.removeRun 0 c1cexRrRun ⟨0,0⟩

/-- C1 counterexample: the claim as stated is false.  First input: a
MoveRing command whose player field is not the current player is still
legal (MoveRing::is_legal never reads the field), but undo restores
current_player from it, so the round trip changes the turn.  Second
input: RemoveRun::is_legal validates the run against the cached run list
only; on a state whose cache does not match the board the undo re-places
five markers that were never on the board. -/
theorem c1_cex :
    (c1cexMv.is_legal c1cexMvState = true ∧
      (c1cexMv.undo (c1cexMv.execute c1cexMvState)).current_player
        ≠ c1cexMvState.current_player) ∧
    (c1cexRr.is_legal c1cexRrState = true ∧
      (c1cexRr.undo (c1cexRr.execute c1cexRrState)).board.occupied ⟨0,0⟩
        ≠ c1cexRrState.board.occupied ⟨0,0⟩) := by
  refine ⟨⟨by decide, by decide⟩, by decide, by decide⟩

/-- Witness for c1_round_trip at a concrete legal PlaceRing command. -/
theorem c1_round_trip_witness :
    ((Action.placeRing ⟨0,0⟩).is_legal (State.new Board.new) = true ∧
     (Action.placeRing ⟨0,0⟩).enumerated_for (State.new Board.new) = true) ∧
    ((Action.placeRing ⟨0,0⟩).undo
        ((Action.placeRing ⟨0,0⟩).execute (State.new Board.new))).current_phase
      = (State.new Board.new).current_phase :=
  ⟨⟨by decide, by decide⟩,
    (c1_round_trip (Action.placeRing ⟨0,0⟩) (State.new Board.new) (by decide) (by decide)).2.1⟩

theorem removeRunMoves_total (i : Nat) (rs : List (List HexCoord))
    (h : ∀ r ∈ rs, r ≠ []) : ∃ l, removeRunMoves i rs = some l := by
  induction rs generalizing i with
  | nil => exact ⟨[], rfl⟩
  | cons r rs ih =>
    obtain ⟨l, hl⟩ := ih (i + 1) (fun x hx => h x (List.mem_cons_of_mem _ hx))
    have hne : r ≠ [] := h r (List.mem_cons_self _ _)
    obtain ⟨x, xs, rfl⟩ := List.exists_cons_of_ne_nil hne
    refine ⟨Action.removeRun i (x :: xs) x :: l, ?_⟩
    simp [removeRunMoves, hl]

theorem legal_moves_total (s : State) (h : ∀ r ∈ s.current_player_runs, r ≠ []) :
    ∃ mvs, s.legal_moves = some mvs := by
  cases hph : s.current_phase <;>
    simp only [State.legal_moves, hph] <;>
    first
      | exact ⟨_, rfl⟩
      | exact removeRunMoves_total 0 _ h

/-- C2 (amended): provided every cached run of the current player is
non-empty (true of every cache produced by compute_runs, whose runs have
length five), execute_for_coord never panics: it returns true and the
mutated state (the first legal_moves entry whose anchor equals the
coordinate applied, with the command pushed onto the history stack)
exactly when such an entry exists and its is_legal re-validation passes,
and otherwise returns false with the state unchanged.  Without that
proviso the RemoveRun arm of legal_moves panics on run[0]. -/
theorem c2_execute_for_coord (s : State) (c : HexCoord)
    (h : ∀ r ∈ s.current_player_runs, r ≠ []) :
    ∃ mvs, s.legal_moves = some mvs ∧
      (∀ m, mvs.find? (fun a => decide (a.coord = c)) = some m →
        ((m.is_legal s = true →
            s.execute_for_coord c =
              some (true, { m.execute s with history := m :: s.history })) ∧
         (m.is_legal s = false → s.execute_for_coord c = some (false, s)))) ∧
      (mvs.find? (fun a => decide (a.coord = c)) = none →
        s.execute_for_coord c = some (false, s)) := by
  obtain ⟨mvs, hmvs⟩ := legal_moves_total s h
  refine ⟨mvs, hmvs, fun m hm => ⟨fun hleg => ?_, fun hleg => ?_⟩, fun hm => ?_⟩
  · simp [State.execute_for_coord, hmvs, hm, hleg]
  · simp [State.execute_for_coord, hmvs, hm, hleg]
  · simp [State.execute_for_coord, hmvs, hm]

/-- Witness for c2_execute_for_coord on the initial state. -/
theorem c2_execute_for_coord_witness :
    ∃ mvs, (State.new Board.new).legal_moves = some mvs := by
  obtain ⟨mvs, hmvs, -, -⟩ := c2_execute_for_coord (State.new Board.new) ⟨0, 0⟩ (by decide)
  exact ⟨mvs, hmvs⟩

def c2cexState : State :=
  { State.new Board.new with current_phase := .removeRun, runs_white := [[]] }

/-- C2 counterexample: on a state whose cached run list for the current
player contains an empty run, the RemoveRun arm of legal_moves evaluates
run[0] on an empty vector, a panic (modelled as none); execute_for_coord
then neither returns false nor leaves the state unchanged — it panics,
refuting the unconditional never-panics clause. -/
theorem c2_cex : c2cexState.execute_for_coord ⟨0, 0⟩ = none := rfl

/-- C8 (confirmed): PlayerWon is terminal for forward play: legal_moves
is the empty list and execute_for_coord returns false for every
coordinate, leaving the state unchanged. -/
theorem c8_player_won_terminal (s : State) (w : Player)
    (h : s.current_phase = Phase.playerWon w) :
    s.legal_moves = some [] ∧
    ∀ c, s.execute_for_coord c = some (false, s) := by
  constructor
  · simp [State.legal_moves, h]
  · intro c
    simp [State.execute_for_coord, State.legal_moves, h]

def c8State : State := { State.new Board.new with current_phase := .playerWon .white }

/-- Witness for c8_player_won_terminal at a concrete terminal state. -/
theorem c8_player_won_terminal_witness :
    c8State.legal_moves = some [] ∧
    c8State.execute_for_coord ⟨0, 0⟩ = some (false, c8State) := by
  obtain ⟨h1, h2⟩ := c8_player_won_terminal c8State Player.white rfl
  exact ⟨h1, h2 ⟨0, 0⟩⟩

/-- C9 (confirmed): undo pops the history stack and inverts exactly the
most recently applied command when the stack is non-empty, and returns
false as a complete no-op, the state unchanged, when the stack is empty. -/
theorem c9_undo (s : State) :
    (s.history = [] → s.undo = (false, s)) ∧
    (∀ a rest, s.history = a :: rest →
      s.undo = (true, a.undo { s with history := rest })) := by
  constructor
  · intro h
    simp [State.undo, h]
  · intro a rest h
    simp [State.undo, h]

/-- Witness for c9_undo: the initial state has empty history and undo is
a no-op on it. -/
theorem c9_undo_witness : (State.new Board.new).undo = (false, State.new Board.new) :=
  (c9_undo (State.new Board.new)).1 rfl

/-- C3 (confirmed): after a legal MoveRing executes, the phase is
RemoveRun with no turn change when the mover has a run on the resulting
board, RemoveRun with the turn advanced to the opponent when only the
opponent has one (the mover is checked first), and otherwise PlaceMarker
with the turn advanced.  The freshly recomputed caches of the resulting
state witness the run conditions. -/
theorem c3_move_ring_phase (s : State) (src dst : HexCoord) (p : Player)
    (h : (Action.moveRing src dst p).is_legal s = true) :
    (((Action.moveRing src dst p).execute s).has_run s.current_player = true →
      ((Action.moveRing src dst p).execute s).current_phase = Phase.removeRun ∧
      ((Action.moveRing src dst p).execute s).current_player = s.current_player) ∧
    (((Action.moveRing src dst p).execute s).has_run s.current_player = false →
      ((Action.moveRing src dst p).execute s).has_run s.current_player.other = true →
      ((Action.moveRing src dst p).execute s).current_phase = Phase.removeRun ∧
      ((Action.moveRing src dst p).execute s).current_player = s.current_player.other) ∧
    (((Action.moveRing src dst p).execute s).has_run s.current_player = false →
      ((Action.moveRing src dst p).execute s).has_run s.current_player.other = false →
      ((Action.moveRing src dst p).execute s).current_phase = Phase.placeMarker ∧
      ((Action.moveRing src dst p).execute s).current_player = s.current_player.other) := by
  cases hcp : s.current_player <;>
    by_cases h1 : 0 < (((s.board.place_unchecked (Piece.ring s.current_player) dst).flip_between
      src dst).runs s.current_player).length <;>
    by_cases h2 : 0 < (((s.board.place_unchecked (Piece.ring s.current_player) dst).flip_between
      src dst).runs s.current_player.other).length <;>
    refine ⟨fun hr => ?_, fun hr1 hr2 => ?_, fun hr1 hr2 => ?_⟩ <;>
    simp_all [Action.execute, State.set_phase, State.next_player, State.compute_runs,
      State.has_run, State.runs_for, Player.other, Nat.pos_iff_ne_zero, List.length_eq_zero]

def c3State : State := { State.new Board.new with current_phase := .moveRing ⟨0, 0⟩ }

/-- Witness for c3_move_ring_phase: a legal move on the empty board
produces no run, so the phase advances to PlaceMarker and the turn
passes to the opponent. -/
theorem c3_move_ring_phase_witness :
    ((Action.moveRing ⟨0, 0⟩ ⟨1, 0⟩ Player.white).execute c3State).current_phase
        = Phase.placeMarker ∧
    ((Action.moveRing ⟨0, 0⟩ ⟨1, 0⟩ Player.white).execute c3State).current_player
        = Player.black :=
  (c3_move_ring_phase c3State ⟨0, 0⟩ ⟨1, 0⟩ Player.white (by decide)).2.2
    (by decide) (by decide)

/-- C4 (confirmed): a legal RemoveRing removes the ring and increments the
acting player's score; at score three the phase becomes PlayerWon with the
turn unchanged; otherwise the acting player keeps the turn in RemoveRun
while a cached run remains, and else the turn advances with the phase
determined by the new current player's cached runs. -/
theorem c4_remove_ring (s : State) (pos : HexCoord) (p : Player)
    (h : (Action.removeRing pos p).is_legal s = true) :
    ((Action.removeRing pos p).execute s).board.occupied pos = none ∧
    ((Action.removeRing pos p).execute s).get_score p = s.get_score p + 1 ∧
    (s.get_score p + 1 = 3 →
      ((Action.removeRing pos p).execute s).current_phase = Phase.playerWon p ∧
      ((Action.removeRing pos p).execute s).current_player = s.current_player) ∧
    (s.get_score p + 1 ≠ 3 → s.has_run p = true →
      ((Action.removeRing pos p).execute s).current_phase = Phase.removeRun ∧
      ((Action.removeRing pos p).execute s).current_player = p) ∧
    (s.get_score p + 1 ≠ 3 → s.has_run p = false →
      ((Action.removeRing pos p).execute s).current_player = p.other ∧
      ((Action.removeRing pos p).execute s).current_phase =
        (if s.has_run p.other then Phase.removeRun else Phase.placeMarker)) := by
  simp only [Action.is_legal, State.at_phase, Board.player_ring_at, Bool.and_eq_true,
    decide_eq_true_eq] at h
  obtain ⟨⟨hph, hring⟩, hp⟩ := h
  subst hp
  refine ⟨?_, ?_, ?_, ?_, ?_⟩ <;>
    cases hcp : s.current_player <;>
    simp only [Action.execute, State.set_phase, State.next_player, State.inc_score,
      State.dec_score, State.get_score, State.has_run, State.runs_for, Player.other, hcp] <;>
    (try split) <;> (try split) <;> (try split) <;>
    simp_all [Board.occupied_remove, State.has_run, State.runs_for, Player.other]

def c4State : State :=
  { State.new (Board.new.place_unchecked (Piece.ring .white) ⟨0, 0⟩) with
      current_phase := .removeRing }

/-- Witness for c4_remove_ring: removing the only white ring on a fresh
board raises the score from 0 to 1 and, with no cached runs, advances the
turn into PlaceMarker. -/
theorem c4_remove_ring_witness :
    ((Action.removeRing ⟨0, 0⟩ Player.white).execute c4State).get_score Player.white
      = c4State.get_score Player.white + 1 :=
  (c4_remove_ring c4State ⟨0, 0⟩ Player.white (by decide)).2.1

/-- The commands whose execute path invokes compute_runs: MoveRing and
RemoveRun.  PlaceMarker also changes marker occupancy but does not
recompute the caches. -/
def Action.recomputes_runs : Action → Bool
  | .moveRing _ _ _ => true
  | .removeRun _ _ _ => true
  | _ => false

/-- C5 (amended): after every application of a MoveRing or RemoveRun
command — the marker-occupancy-changing commands that invoke
compute_runs — both players' cached run lists equal the runs freshly
computed from the resulting board.  PlaceMarker changes marker occupancy
without recomputing, so the unrestricted claim fails for it. -/
theorem c5_cache_fresh (s : State) (a : Action) (h : a.recomputes_runs = true) :
    (a.execute s).runs_white = (a.execute s).board.runs Player.white ∧
    (a.execute s).runs_black = (a.execute s).board.runs Player.black := by
  cases a with
  | moveRing src dst p =>
    constructor <;>
      simp only [Action.execute, State.set_phase, State.next_player, State.compute_runs] <;>
      (try split) <;> (try split) <;> rfl
  | removeRun i run pos =>
    constructor <;> rfl
  | placeRing pos => simp [Action.recomputes_runs] at h
  | placeMarker pos => simp [Action.recomputes_runs] at h
  | removeRing pos p => simp [Action.recomputes_runs] at h

/-- Witness for c5_cache_fresh at a concrete MoveRing application. -/
theorem c5_cache_fresh_witness :
    ((Action.moveRing ⟨0, 0⟩ ⟨1, 0⟩ Player.white).execute c3State).runs_white
      = ((Action.moveRing ⟨0, 0⟩ ⟨1, 0⟩ Player.white).execute c3State).board.runs Player.white :=
  (c5_cache_fresh c3State (Action.moveRing ⟨0, 0⟩ ⟨1, 0⟩ Player.white) (by decide)).1

def c5cexState : State :=
  { State.new ((([⟨-2, 0⟩, ⟨-1, 0⟩, ⟨0, 0⟩, ⟨1, 0⟩] : List HexCoord).foldl
      (fun b c => b.place_unchecked (Piece.marker .white) c)
        Board.new).place_unchecked (Piece.ring .white) ⟨2, 0⟩) with
    current_phase := .placeMarker }

/-- C5 counterexample: PlaceMarker changes marker occupancy (it writes a
Marker over the current player's Ring) but its execute never calls
compute_runs.  Completing a five-run by placing the marker at (2,0) over
the white ring leaves the cached run list empty while the board holds a
run, so the cache is stale. -/
theorem c5_cex :
    (Action.placeMarker ⟨2, 0⟩).is_legal c5cexState = true ∧
    ((Action.placeMarker ⟨2, 0⟩).execute c5cexState).runs_white
      ≠ ((Action.placeMarker ⟨2, 0⟩).execute c5cexState).board.runs Player.white := by
  exact ⟨by decide, by decide⟩

/-- C6 (confirmed): a legal PlaceRing places the current player's ring at
pos and advances the turn; the phase becomes PlaceMarker exactly when the
number of rings on the board after the placement exceeds 9, and stays
PlaceRing otherwise. -/
theorem c6_place_ring (s : State) (pos : HexCoord)
    (h : (Action.placeRing pos).is_legal s = true) :
    ((Action.placeRing pos).execute s).board.occupied pos
      = some (Piece.ring s.current_player) ∧
    ((Action.placeRing pos).execute s).current_player = s.current_player.other ∧
    (9 < ((Action.placeRing pos).execute s).board.ringsCount →
      ((Action.placeRing pos).execute s).current_phase = Phase.placeMarker) ∧
    (¬ 9 < ((Action.placeRing pos).execute s).board.ringsCount →
      ((Action.placeRing pos).execute s).current_phase = Phase.placeRing) := by
  simp only [Action.is_legal, State.at_phase, Board.free_board_field, Bool.and_eq_true,
    decide_eq_true_eq, Option.isNone_iff_eq_none] at h
  obtain ⟨hph, hval, hocc⟩ := h
  have hbeq : ((Action.placeRing pos).execute s).board
      = s.board.place_unchecked (Piece.ring s.current_player) pos := by
    simp only [Action.execute, State.set_phase, State.next_player]
    split <;> rfl
  refine ⟨?_, ?_, fun hc => ?_, fun hc => ?_⟩
  · rw [hbeq]
    simp [Board.occupied_place]
  · simp only [Action.execute, State.set_phase, State.next_player]
    split <;> rfl
  · rw [hbeq] at hc
    simp only [Action.execute, State.set_phase, State.next_player]
    rw [if_pos hc]
  · rw [hbeq] at hc
    simp only [Action.execute, State.set_phase, State.next_player]
    rw [if_neg hc]
    exact hph

/-- Witness for c6_place_ring: the first ring placed on the empty board
leaves the phase at PlaceRing. -/
theorem c6_place_ring_witness :
    ((Action.placeRing ⟨0, 0⟩).execute (State.new Board.new)).current_player
      = (State.new Board.new).current_player.other :=
  (c6_place_ring (State.new Board.new) ⟨0, 0⟩ (by decide)).2.1

/-- C7 (confirmed): ring_targets never contains an occupied coordinate —
in particular no coordinate holding a Ring and no coordinate of a jumped
marker run, which hold Markers — and along any direction the walk ends
with no further targets as soon as the first non-empty cell holds a
Ring: the targets of a line consisting of empty cells followed by a ring
are exactly those empty cells. -/
theorem c7_ring_targets_sound (b : Board) (c : HexCoord) :
    (∀ t ∈ b.ring_targets c, b.occupied t = none) ∧
    (∀ (es : List HexCoord) (x : HexCoord) (cs : List HexCoord) (pl : Player),
      (∀ e ∈ es, b.occupied e = none) → b.occupied x = some (Piece.ring pl) →
      targetsA b (es ++ x :: cs) = es) := by
  constructor
  · intro t ht
    exact ring_targets_occupied_none b c t ht
  · intro es
    induction es with
    | nil =>
      intro x cs pl _ hx
      simp [targetsA, hx]
    | cons e es ih =>
      intro x cs pl hes hx
      have he : b.occupied e = none := hes e (List.mem_cons_self _ _)
      have hrest : ∀ y ∈ es, b.occupied y = none :=
        fun y hy => hes y (List.mem_cons_of_mem _ hy)
      simp only [List.cons_append, targetsA, he]
      exact congrArg (fun l => e :: l) (ih x cs pl hrest hx)

def c7Board : Board :=
  (Board.new.place_unchecked (Piece.marker .black) ⟨0, 0⟩).place_unchecked
    (Piece.marker .white) ⟨1, 0⟩

/-- Witness for c7_ring_targets_sound: on a board with a marker run at
(0,0) and (1,0), the coordinate (2,0) just behind the jumped run is a
target of a ring at (-2,0) and is unoccupied. -/
theorem c7_ring_targets_sound_witness :
    ((⟨2, 0⟩ : HexCoord) ∈ c7Board.ring_targets ⟨-2, 0⟩) ∧
    c7Board.occupied ⟨2, 0⟩ = none :=
  ⟨by decide, (c7_ring_targets_sound c7Board ⟨-2, 0⟩).1 ⟨2, 0⟩ (by decide)⟩

/-- C10 (confirmed): a legal MoveRing writes only the destination cell,
which receives the mover's ring, and toggles marker ownership strictly
between src and dst: every cell off that segment and distinct from the
destination keeps its piece — in particular the marker left at the origin
cell — and both scores and the history stack are unchanged. -/
theorem c10_move_ring_frame (s : State) (src dst : HexCoord) (p : Player)
    (h : (Action.moveRing src dst p).is_legal s = true) :
    ((Action.moveRing src dst p).execute s).board.occupied dst
      = some (Piece.ring s.current_player) ∧
    (∀ c, c ≠ dst → c ∉ segmentBetween src dst →
      ((Action.moveRing src dst p).execute s).board.occupied c = s.board.occupied c) ∧
    (∀ c, c ∈ segmentBetween src dst →
      ((Action.moveRing src dst p).execute s).board.occupied c
        = flipCell (s.board.occupied c)) ∧
    ((Action.moveRing src dst p).execute s).board.occupied src = s.board.occupied src ∧
    ((Action.moveRing src dst p).execute s).points_white = s.points_white ∧
    ((Action.moveRing src dst p).execute s).points_black = s.points_black ∧
    ((Action.moveRing src dst p).execute s).history = s.history := by
  simp only [Action.is_legal, State.at_phase, Bool.and_eq_true, decide_eq_true_eq] at h
  obtain ⟨hph, htgt⟩ := h
  have hbeq : ((Action.moveRing src dst p).execute s).board
      = (s.board.place_unchecked (Piece.ring s.current_player) dst).flip_between src dst := by
    simp only [Action.execute, State.set_phase, State.next_player, State.compute_runs]
    (try split) <;> (try split) <;> rfl
  have hndst : dst ∉ segmentBetween src dst :=
    fun hm => mem_segment_ne_right src dst dst hm rfl
  have hsrcdst : src ≠ dst := (ring_targets_ne_start s.board src dst htgt).symm
  have hnsrc : src ∉ segmentBetween src dst :=
    fun hm => mem_segment_ne_left src dst src hm rfl
  refine ⟨?_, ?_, ?_, ?_, ?_, ?_, ?_⟩
  · rw [hbeq]
    simp [Board.occupied_flip, Board.occupied_place, hndst]
  · intro c hc hcs
    rw [hbeq]
    simp [Board.occupied_flip, Board.occupied_place, hc, hcs]
  · intro c hcs
    have hcd : c ≠ dst := mem_segment_ne_right src dst c hcs
    rw [hbeq]
    simp [Board.occupied_flip, Board.occupied_place, hcs, hcd]
  · rw [hbeq]
    simp [Board.occupied_flip, Board.occupied_place, hnsrc, hsrcdst]
  · simp only [Action.execute, State.set_phase, State.next_player, State.compute_runs]
    (try split) <;> (try split) <;> rfl
  · simp only [Action.execute, State.set_phase, State.next_player, State.compute_runs]
    (try split) <;> (try split) <;> rfl
  · simp only [Action.execute, State.set_phase, State.next_player, State.compute_runs]
    (try split) <;> (try split) <;> rfl

/-- Witness for c10_move_ring_frame: the move from (-2,0) to (2,0) over
the two-marker run flips the black marker at (0,0) to white. -/
theorem c10_move_ring_frame_witness :
    ((Action.moveRing ⟨-2, 0⟩ ⟨2, 0⟩ Player.white).execute
        { State.new c7Board with current_phase := .moveRing ⟨-2, 0⟩ }).board.occupied ⟨0, 0⟩
      = flipCell (({ State.new c7Board with
          current_phase := .moveRing ⟨-2, 0⟩ } : State).board.occupied ⟨0, 0⟩) :=
  (c10_move_ring_frame { State.new c7Board with current_phase := .moveRing ⟨-2, 0⟩ }
    ⟨-2, 0⟩ ⟨2, 0⟩ Player.white (by decide)).2.2.1 ⟨0, 0⟩ (by decide)

end Yinsh
